import Mathlib

/-!
# Shallow embedding of the KVStore log-structured engine

This file embeds the storage engine of the repository (src/engine.rs,
src/cmd.rs, src/error.rs) as executable Lean definitions and proves the
specification claims about it.

Modelling decisions, record by record:

* `Command` mirrors `cmd.rs`: the tagged variant persisted to the log.
* The on-disk log is modelled as a `List LogRecord`: the file is a sequence
  of newline-terminated lines, each line either the serde_json encoding of a
  `Command` (`LogRecord.Valid`) or bytes whose `serde_json::from_str` fails
  (`LogRecord.Corrupt`, carrying the line content without its newline).
  Lines that decode successfully are represented by their canonical
  serde_json encoding, which is what `append_command` ever writes.
* Byte lengths are computed concretely: `encodeCmd` reproduces serde_json's
  output format (externally tagged enum, standard JSON string escaping) and
  `strBytes` counts UTF-8 bytes, so `encLen cmd` is exactly the `len`
  that `append_command` returns (serialized bytes plus the pushed newline).
* `KvStore.wpos` models the cursor of the append-mode write handle.  This is
  essential for faithfulness: `append_command` records the offset returned by
  `BufWriter::stream_position()`, and a file just opened with `append(true)`
  has cursor 0 (POSIX `O_APPEND` moves the offset to end-of-file only at each
  `write`).  Hence `open` and `compact` (which both open a fresh append
  handle) leave `wpos = 0` even when the log is non-empty, and the first
  append afterwards records offset 0 while the bytes actually land at
  end-of-file.  Subsequent appends see the post-write cursor, which equals
  the true end-of-file.
* `readAt log off` models `seek(Start(off))` followed by `read_line`: it
  returns the record starting exactly at byte offset `off`.  Reading at or
  past end-of-file yields an empty/failed parse in the code; reading strictly
  inside a record yields a partial line that does not parse.  Both are
  modelled as `none`, and `get` maps `none` to `LogCorruption` exactly as the
  code maps a failed parse.  Neither case is reachable through the public
  operations, whose index offsets always sit on record boundaries.
* Fallible operations return the post-call store paired with
  `Except KvError Unit`, mirroring `&mut self -> Result<()>`: on an error
  return the store component is the unchanged receiver.
* I/O never fails in the base model (the happy path); `compactF` additionally
  models an injected I/O failure at each fallible point of `compact` so that
  the error-variant mapping of the copy phase can be stated.
-/

/-- `cmd.rs`: write-ahead log command persisted to disk. -/
inductive Command where
  | Set (key val : String)
  | Remove (key : String)
deriving DecidableEq, Repr

/-- `error.rs`: the error enum.  `KvError::Io` is modelled as `IoFail`
(carrying the display message), `KvError::Serde` as `SerdeFail`. -/
inductive KvError where
  | IoFail (msg : String)
  | SerdeFail (msg : String)
  | KeyNotFound
  | InvalidKey (msg : String)
  | LogCorruption (offset : Nat)
  | CompactionFailed (msg : String)
deriving DecidableEq, Repr

/-- `engine.rs`: `LogPointer { offset, len }` into the current log file. -/
structure LogPointer where
  offset : Nat
  len : Nat
deriving DecidableEq, Repr

/-- One line of the log file: either a line that `serde_json` decodes to a
`Command` (represented by that command; the bytes are its canonical
encoding), or a corrupted line that fails to decode. -/
inductive LogRecord where
  | Valid (cmd : Command)
  | Corrupt (raw : String)
deriving DecidableEq, Repr

/-- UTF-8 byte count of a character (mirrors `Char.utf8Size`). -/
def charBytes (c : Char) : Nat :=
  if c.toNat < 128 then 1
  else if c.toNat < 2048 then 2
  else if c.toNat < 65536 then 3
  else 4

/-- UTF-8 byte count of a string, i.e. the `len` contribution of its bytes
when written to the log file. -/
def strBytes (s : String) : Nat :=
  s.data.foldl (fun n c => n + charBytes c) 0

/-- Lower-case hexadecimal digit, as used by serde_json's `\u00XX` escapes. -/
def hexDigit (n : Nat) : Char :=
  if n < 10 then Char.ofNat (48 + n) else Char.ofNat (87 + n % 16)

/-- serde_json's escaping of a single character inside a JSON string. -/
def jsonEscapeChar (c : Char) : String :=
  if c = '"' then "\\\""
  else if c = '\\' then "\\\\"
  else if c = '\x08' then "\\b"
  else if c = '\x09' then "\\t"
  else if c = '\x0a' then "\\n"
  else if c = '\x0c' then "\\f"
  else if c = '\x0d' then "\\r"
  else if c.toNat < 32 then
    "\\u00" ++ String.singleton (hexDigit (c.toNat / 16))
            ++ String.singleton (hexDigit (c.toNat % 16))
  else String.singleton c

/-- A JSON string literal for `s`, with serde_json's escaping. -/
def jsonString (s : String) : String :=
  "\"" ++ String.join (s.data.map jsonEscapeChar) ++ "\""

/-- serde_json's externally tagged encoding of `Command`
(`serde_json::to_vec` in `append_command`), without the trailing newline. -/
def encodeCmd : Command → String
  | .Set key val =>
      "\x7b\"Set\":\x7b\"key\":" ++ jsonString key ++ ",\"val\":" ++ jsonString val ++ "\x7d\x7d"
  | .Remove key =>
      "\x7b\"Remove\":\x7b\"key\":" ++ jsonString key ++ "\x7d\x7d"

/-- Byte length of the log line written for `cmd`: the serialized bytes plus
the pushed `\n` (`append_command`). -/
def encLen (cmd : Command) : Nat :=
  strBytes (encodeCmd cmd) + 1

/-- Byte length of a log line including its terminating newline — the value
`line.len()` seen by `rebuild_index` and `compact` after `read_line`. -/
def recLen : LogRecord → Nat
  | .Valid cmd => encLen cmd
  | .Corrupt raw => strBytes raw + 1

/-- Total byte length of the log file. -/
def logSize (log : List LogRecord) : Nat :=
  (log.map recLen).sum

/-- `seek(SeekFrom::Start(off))` then `read_line`: the record whose line
starts exactly at byte `off`.  `none` models reading at/past end-of-file
(empty line, parse fails) or strictly inside a record (partial line). -/
def readAt : List LogRecord → Nat → Option LogRecord
  | [], _ => none
  | r :: rs, off =>
    if off = 0 then some r
    else if off < recLen r then none
    else readAt rs (off - recLen r)

/-- The in-memory index, `HashMap<String, LogPointer>`, modelled as an
association list (the hash-map iteration order is implementation defined;
the list order plays that role). -/
abbrev Index := List (String × LogPointer)

/-- `HashMap::get`. -/
def lookupA : Index → String → Option LogPointer
  | [], _ => none
  | (k', p) :: rest, k => if k' = k then some p else lookupA rest k

/-- `HashMap::insert` (replaces the value if the key is present). -/
def insertA : Index → String → LogPointer → Index
  | [], k, p => [(k, p)]
  | (k', p') :: rest, k, p =>
    if k' = k then (k, p) :: rest else (k', p') :: insertA rest k p

/-- `HashMap::remove` (drops the entry if present). -/
def eraseA : Index → String → Index
  | [], _ => []
  | (k', p') :: rest, k =>
    if k' = k then rest else (k', p') :: eraseA rest k

/-- Sum of the `len` fields of the index's pointers: the bytes still
referenced by the index ("live bytes"). -/
def liveBytes (idx : Index) : Nat :=
  (idx.map fun kv => kv.2.len).sum

/-- `engine.rs`: the store.  `wpos` is the cursor of the append-mode writer
(see the header comment); the file paths are not part of the model. -/
structure KvStore where
  index : Index
  log : List LogRecord
  wpos : Nat
  uncompacted : Nat
  threshold : Nat
deriving DecidableEq, Repr

/-- `KvStore::append_command`: serialize, push `\n`, write at end-of-file,
flush.  Returns (store, offset, len).  The reported offset is the writer
cursor `stream_position()` *before* the write (`wpos`); the bytes land at
the true end-of-file and the cursor then points to the new end-of-file. -/
def append_command (s : KvStore) (cmd : Command) : KvStore × Nat × Nat :=
  let len := encLen cmd
  ({ s with log := s.log ++ [LogRecord.Valid cmd], wpos := logSize s.log + len },
   s.wpos, len)

/-- `KvStore::validate_key`. -/
def validate_key (key : String) : Except KvError Unit :=
  if key.isEmpty then .error (.InvalidKey "Key cannot be empty") else .ok ()

/-- One iteration of `compact`'s copy loop: seek to the entry's offset, read
one line, append it to the new log, record the new pointer.  When `readAt`
is `none` (offset at/past end-of-file) the line read is empty: nothing is
appended and a zero-length pointer is recorded, as in the code. -/
def compact_step (log : List LogRecord) :
    List LogRecord × Index × Nat → String × LogPointer → List LogRecord × Index × Nat
  | (newLog, newIdx, pos), (key, ptr) =>
    match readAt log ptr.offset with
    | some r => (newLog ++ [r], insertA newIdx key ⟨pos, recLen r⟩, pos + recLen r)
    | none => (newLog, insertA newIdx key ⟨pos, 0⟩, pos)

/-- `KvStore::compact`, happy path: copy the line at each index entry's
offset to a fresh log, atomically replace the log, install the rebuilt
index, reset `uncompacted`, and reopen the writer in append mode (new
cursor 0). -/
def KvStore.compact (s : KvStore) : KvStore :=
  let out := s.index.foldl (compact_step s.log) ([], [], 0)
  { index := out.2.1, log := out.1, wpos := 0, uncompacted := 0,
    threshold := s.threshold }

/-- `KvStore::maybe_compact`. -/
def KvStore.maybe_compact (s : KvStore) : KvStore :=
  if s.uncompacted > s.threshold then s.compact else s

/-- The mutation performed by `KvStore::set` after key validation: append
the `Set` record, account the superseded pointer's length, install the new
pointer. -/
def KvStore.setBody (s : KvStore) (key val : String) : KvStore :=
  let app := append_command s (.Set key val)
  let s1 := app.1
  let off := app.2.1
  let len := app.2.2
  let unc1 :=
    match lookupA s1.index key with
    | some old => s1.uncompacted + old.len
    | none => s1.uncompacted
  { s1 with index := insertA s1.index key ⟨off, len⟩, uncompacted := unc1 }

/-- `KvStore::set`. -/
def KvStore.set (s : KvStore) (key val : String) : KvStore × Except KvError Unit :=
  match validate_key key with
  | .error e => (s, .error e)
  | .ok _ => ((s.setBody key val).maybe_compact, .ok ())

/-- `KvStore::get`: index lookup, seek + read at the pointer, decode; the
record must decode as `Set`. -/
def KvStore.get (s : KvStore) (key : String) : Except KvError (Option String) :=
  match lookupA s.index key with
  | none => .ok none
  | some ptr =>
    match readAt s.log ptr.offset with
    | some (.Valid (.Set _ v)) => .ok (some v)
    | some (.Valid (.Remove _)) => .error (.LogCorruption ptr.offset)
    | some (.Corrupt _) => .error (.LogCorruption ptr.offset)
    | none => .error (.LogCorruption ptr.offset)

/-- The mutation performed by `KvStore::remove` once the key is known to be
present: append the tombstone, account both the superseded record and the
tombstone itself, drop the key. -/
def KvStore.removeBody (s : KvStore) (key : String) : KvStore :=
  let app := append_command s (.Remove key)
  let s1 := app.1
  let len := app.2.2
  match lookupA s1.index key with
  | some old =>
      { s1 with index := eraseA s1.index key,
                uncompacted := s1.uncompacted + old.len + len }
  | none => s1

/-- `KvStore::remove`. -/
def KvStore.remove (s : KvStore) (key : String) : KvStore × Except KvError Unit :=
  match lookupA s.index key with
  | none => (s, .error .KeyNotFound)
  | some _ => ((s.removeBody key).maybe_compact, .ok ())

/-- One line of `rebuild_index`'s replay loop over the accumulator
(index, pos, total_bytes, live_bytes). -/
def rebuild_step : Index × Nat × Nat × Nat → LogRecord → Index × Nat × Nat × Nat
  | (idx, pos, total, live), r =>
    let len := recLen r
    match r with
    | .Valid (.Set key _) =>
      let live1 :=
        match lookupA idx key with
        | some old => live - old.len
        | none => live
      (insertA idx key ⟨pos, len⟩, pos + len, total + len, live1 + len)
    | .Valid (.Remove key) =>
      match lookupA idx key with
      | some old => (eraseA idx key, pos + len, total + len, live - old.len)
      | none => (idx, pos + len, total + len, live)
    | .Corrupt _ => (idx, pos + len, total + len, live)

/-- `KvStore::rebuild_index`: replay every line of the log; a line that
fails to decode only advances the byte counters (the code logs a warning
and skips it; the loop never aborts).  Returns (index, uncompacted) where
`uncompacted = total_bytes.saturating_sub(live_bytes)`. -/
def rebuild_index (log : List LogRecord) : Index × Nat :=
  let out := log.foldl rebuild_step ([], 0, 0, 0)
  (out.1, out.2.2.1 - out.2.2.2)

/-- `KvStore::open` on a directory whose log file holds `log` (creating the
file if absent): fresh append-mode writer (cursor 0), default 1 MiB
threshold, index rebuilt from the log. -/
def KvStore.openLog (log : List LogRecord) : KvStore :=
  let out := rebuild_index log
  { index := out.1, log := log, wpos := 0, uncompacted := out.2,
    threshold := 1024 * 1024 }

/-- `KvStore::open` on a fresh (empty) directory. -/
def KvStore.openEmpty : KvStore :=
  KvStore.openLog []

/-- `KvStore::set_compaction_threshold`. -/
def KvStore.set_compaction_threshold (s : KvStore) (t : Nat) : KvStore :=
  { s with threshold := t }

/-- Store states reachable through the public engine operations: a fresh
open, successful `set`/`remove` calls, threshold changes, and reopening the
current log directory. -/
inductive Reachable : KvStore → Prop where
  | init : Reachable KvStore.openEmpty
  | stepSet (s s' : KvStore) (k v : String) :
      Reachable s → s.set k v = (s', Except.ok ()) → Reachable s'
  | stepRemove (s s' : KvStore) (k : String) :
      Reachable s → s.remove k = (s', Except.ok ()) → Reachable s'
  | stepThreshold (s : KvStore) (t : Nat) :
      Reachable s → Reachable (s.set_compaction_threshold t)
  | stepReopen (s : KvStore) :
      Reachable s → Reachable (KvStore.openLog s.log)

/-- The points at which `compact` performs fallible I/O before any in-memory
mutation, in program order: creating the temp file (`File::create`, mapped
to `CompactionFailed`), opening the read handle (`File::open`, propagated
with `?` as `Io`), the seek/read/write of the i-th copied entry (all
propagated as `Io`), flushing the temp file (`Io`), and the final rename
(mapped to `CompactionFailed`).  `noFail` is the happy path. -/
inductive CompactIoFailure where
  | createTmp
  | openRead
  | copyStep (i : Nat)
  | flushTmp
  | renameLog
  | noFail
deriving DecidableEq, Repr

/-- `KvStore::compact` with an injected I/O failure: the store component of
the result is the in-memory state after the call (every modelled failure
point precedes the rename and the in-memory updates, so the state is the
unchanged receiver), and the error is the variant the code maps that
failure to.  A `copyStep i` with `i` not less than the number of index
entries does not occur and the call succeeds. -/
def KvStore.compactF (s : KvStore) (f : CompactIoFailure) : KvStore × Except KvError Unit :=
  match f with
  | .createTmp => (s, .error (.CompactionFailed "create failed"))
  | .openRead => (s, .error (.IoFail "open failed"))
  | .copyStep i =>
      if i < s.index.length then (s, .error (.IoFail "copy failed"))
      else (s.compact, .ok ())
  | .flushTmp => (s, .error (.IoFail "flush failed"))
  | .renameLog => (s, .error (.CompactionFailed "rename failed"))
  | .noFail => (s.compact, .ok ())

/-! ## Basic facts about record lengths, the log, and the index -/

@[simp] theorem recLen_valid (cmd : Command) : recLen (.Valid cmd) = encLen cmd := rfl

@[simp] theorem recLen_corrupt (raw : String) : recLen (.Corrupt raw) = strBytes raw + 1 := rfl

theorem encLen_pos (cmd : Command) : 0 < encLen cmd := by
  simp [encLen]

theorem recLen_pos (r : LogRecord) : 0 < recLen r := by
  cases r <;> simp [encLen]

@[simp] theorem logSize_nil : logSize [] = 0 := rfl

@[simp] theorem logSize_cons (r : LogRecord) (l : List LogRecord) :
    logSize (r :: l) = recLen r + logSize l := by
  simp [logSize]

@[simp] theorem logSize_append (l1 l2 : List LogRecord) :
    logSize (l1 ++ l2) = logSize l1 + logSize l2 := by
  simp [logSize]

@[simp] theorem liveBytes_nil : liveBytes [] = 0 := rfl

@[simp] theorem liveBytes_cons (a : String × LogPointer) (tl : Index) :
    liveBytes (a :: tl) = a.2.len + liveBytes tl := by
  simp [liveBytes]

@[simp] theorem liveBytes_append (l1 l2 : Index) :
    liveBytes (l1 ++ l2) = liveBytes l1 + liveBytes l2 := by
  simp [liveBytes]

theorem readAt_append_of_some {l1 : List LogRecord} {off : Nat} {r : LogRecord}
    (l2 : List LogRecord) (h : readAt l1 off = some r) :
    readAt (l1 ++ l2) off = some r := by
  induction l1 generalizing off with
  | nil => simp [readAt] at h
  | cons a tl ih =>
    simp only [List.cons_append, readAt] at h ⊢
    by_cases h0 : off = 0
    · simpa [h0] using h
    · by_cases hlt : off < recLen a
      · simp [h0, hlt] at h
      · simp only [h0, hlt, if_false] at h ⊢
        exact ih h

theorem readAt_append_end (l : List LogRecord) (r : LogRecord) :
    readAt (l ++ [r]) (logSize l) = some r := by
  induction l with
  | nil => simp [readAt]
  | cons a tl ih =>
    have hp := recLen_pos a
    simp only [List.cons_append, readAt, logSize_cons]
    rw [if_neg (by omega), if_neg (by omega), Nat.add_sub_cancel_left]
    exact ih

theorem readAt_append_zero (l : List LogRecord) (r : LogRecord) :
    ∃ q, readAt (l ++ [r]) 0 = some q := by
  cases l with
  | nil => exact ⟨r, by simp [readAt]⟩
  | cons a tl => exact ⟨a, by simp [readAt]⟩

/-! ## Association-list facts (the HashMap model) -/

@[simp] theorem lookupA_nil (k : String) : lookupA [] k = none := rfl

theorem lookupA_mem {idx : Index} {k : String} {p : LogPointer}
    (h : lookupA idx k = some p) : (k, p) ∈ idx := by
  induction idx with
  | nil => simp at h
  | cons a tl ih =>
    obtain ⟨k1, p1⟩ := a
    simp only [lookupA] at h
    split at h
    · rename_i heq
      injection h with h
      subst heq h
      exact List.mem_cons_self _ _
    · exact List.mem_cons_of_mem _ (ih h)

theorem mem_len_le_liveBytes {idx : Index} {kv : String × LogPointer}
    (h : kv ∈ idx) : kv.2.len ≤ liveBytes idx := by
  induction idx with
  | nil => simp at h
  | cons a tl ih =>
    rcases List.mem_cons.mp h with h | h
    · subst h; simp
    · have := ih h
      simp
      omega

theorem lookupA_eq_none_iff {idx : Index} {k : String} :
    lookupA idx k = none ↔ k ∉ idx.map Prod.fst := by
  induction idx with
  | nil => simp
  | cons a tl ih =>
    obtain ⟨k1, p1⟩ := a
    simp only [lookupA, List.map_cons, List.mem_cons]
    by_cases hk : k1 = k
    · subst hk; simp
    · simp [hk, ih, Ne.symm hk]

theorem lookupA_isSome_iff {idx : Index} {k : String} :
    (lookupA idx k).isSome ↔ k ∈ idx.map Prod.fst := by
  rw [Option.isSome_iff_ne_none, Ne, lookupA_eq_none_iff, not_not]

theorem mem_insertA {idx : Index} {k : String} {p : LogPointer} {kv : String × LogPointer}
    (h : kv ∈ insertA idx k p) : kv = (k, p) ∨ kv ∈ idx := by
  induction idx with
  | nil => simpa [insertA] using h
  | cons a tl ih =>
    obtain ⟨k1, p1⟩ := a
    simp only [insertA] at h
    split at h
    · rcases List.mem_cons.mp h with h | h
      · exact .inl h
      · exact .inr (List.mem_cons_of_mem _ h)
    · rcases List.mem_cons.mp h with h | h
      · exact .inr (by simp [h])
      · rcases ih h with h | h
        · exact .inl h
        · exact .inr (List.mem_cons_of_mem _ h)

theorem keys_insertA (idx : Index) (k : String) (p : LogPointer) :
    (insertA idx k p).map Prod.fst =
      if k ∈ idx.map Prod.fst then idx.map Prod.fst else idx.map Prod.fst ++ [k] := by
  induction idx with
  | nil => simp [insertA]
  | cons a tl ih =>
    obtain ⟨k1, p1⟩ := a
    simp only [insertA]
    by_cases hk : k1 = k
    · subst hk; simp
    · simp only [if_neg hk, List.map_cons, ih]
      by_cases hm : k ∈ tl.map Prod.fst
      · simp [hm, Ne.symm hk]
      · simp [hm, Ne.symm hk]

theorem nodup_insertA {idx : Index} {k : String} {p : LogPointer}
    (h : (idx.map Prod.fst).Nodup) : ((insertA idx k p).map Prod.fst).Nodup := by
  rw [keys_insertA]
  split
  · exact h
  · rename_i hm
    simp [List.nodup_append, h, hm]

@[simp] theorem lookupA_insertA_self (idx : Index) (k : String) (p : LogPointer) :
    lookupA (insertA idx k p) k = some p := by
  induction idx with
  | nil => simp [insertA, lookupA]
  | cons a tl ih =>
    obtain ⟨k1, p1⟩ := a
    simp only [insertA]
    split
    · simp [lookupA]
    · rename_i hk
      simp [lookupA, hk, ih]

theorem lookupA_insertA_ne {idx : Index} {k k' : String} (p : LogPointer) (h : k ≠ k') :
    lookupA (insertA idx k p) k' = lookupA idx k' := by
  induction idx with
  | nil => simp [insertA, lookupA, h]
  | cons a tl ih =>
    obtain ⟨k1, p1⟩ := a
    simp only [insertA]
    split
    · rename_i hk
      subst hk
      simp [lookupA, h]
    · simp only [lookupA, ih]

theorem insertA_of_not_mem {idx : Index} {k : String} (p : LogPointer)
    (h : k ∉ idx.map Prod.fst) : insertA idx k p = idx ++ [(k, p)] := by
  induction idx with
  | nil => simp [insertA]
  | cons a tl ih =>
    obtain ⟨k1, p1⟩ := a
    simp only [List.map_cons, List.mem_cons] at h
    push_neg at h
    simp only [insertA, if_neg (Ne.symm h.1), List.cons_append]
    rw [ih h.2]

theorem liveBytes_insertA_none {idx : Index} {k : String} (p : LogPointer)
    (h : lookupA idx k = none) :
    liveBytes (insertA idx k p) = liveBytes idx + p.len := by
  rw [insertA_of_not_mem p (lookupA_eq_none_iff.mp h)]
  simp

theorem liveBytes_insertA_some {idx : Index} {k : String} {old : LogPointer} (p : LogPointer)
    (h : lookupA idx k = some old) :
    liveBytes (insertA idx k p) + old.len = liveBytes idx + p.len := by
  induction idx with
  | nil => simp at h
  | cons a tl ih =>
    obtain ⟨k1, p1⟩ := a
    simp only [lookupA] at h
    simp only [insertA]
    by_cases hk : k1 = k
    · rw [if_pos hk] at h ⊢
      injection h with h
      subst h
      simp
      omega
    · rw [if_neg hk] at h ⊢
      have := ih h
      simp
      omega

theorem eraseA_sublist (idx : Index) (k : String) : (eraseA idx k).Sublist idx := by
  induction idx with
  | nil => simp [eraseA]
  | cons a tl ih =>
    obtain ⟨k1, p1⟩ := a
    simp only [eraseA]
    split
    · exact List.sublist_cons_self _ _
    · exact List.Sublist.cons₂ _ ih

theorem nodup_eraseA {idx : Index} {k : String}
    (h : (idx.map Prod.fst).Nodup) : ((eraseA idx k).map Prod.fst).Nodup :=
  h.sublist ((eraseA_sublist idx k).map Prod.fst)

theorem mem_eraseA {idx : Index} {k : String} {kv : String × LogPointer}
    (h : kv ∈ eraseA idx k) : kv ∈ idx :=
  (eraseA_sublist idx k).mem h

theorem liveBytes_eraseA {idx : Index} {k : String} {old : LogPointer}
    (h : lookupA idx k = some old) :
    liveBytes (eraseA idx k) + old.len = liveBytes idx := by
  induction idx with
  | nil => simp at h
  | cons a tl ih =>
    obtain ⟨k1, p1⟩ := a
    simp only [lookupA] at h
    simp only [eraseA]
    by_cases hk : k1 = k
    · rw [if_pos hk] at h ⊢
      injection h with h
      subst h
      simp
      omega
    · rw [if_neg hk] at h ⊢
      have := ih h
      simp
      omega

theorem lookupA_eraseA_self {idx : Index} {k : String}
    (hnd : (idx.map Prod.fst).Nodup) : lookupA (eraseA idx k) k = none := by
  induction idx with
  | nil => simp [eraseA]
  | cons a tl ih =>
    obtain ⟨k1, p1⟩ := a
    simp only [List.map_cons, List.nodup_cons] at hnd
    simp only [eraseA]
    by_cases hk : k1 = k
    · rw [if_pos hk]
      subst hk
      exact lookupA_eq_none_iff.mpr hnd.1
    · rw [if_neg hk]
      simp only [lookupA, if_neg hk]
      exact ih hnd.2

/-! ## The rebuild replay invariant -/

/-- Every index entry points at the exact start of a `Set` record for its own
key, and its `len` is that record's length. -/
def AlignedIdx (log : List LogRecord) (idx : Index) : Prop :=
  ∀ kv ∈ idx, ∃ v, readAt log kv.2.offset = some (.Valid (.Set kv.1 v)) ∧
    kv.2.len = encLen (.Set kv.1 v)

theorem alignedIdx_append {log : List LogRecord} {idx : Index} (l2 : List LogRecord)
    (h : AlignedIdx log idx) : AlignedIdx (log ++ l2) idx := by
  intro kv hkv
  obtain ⟨v, hv, hlen⟩ := h kv hkv
  exact ⟨v, readAt_append_of_some l2 hv, hlen⟩

theorem rebuild_step_spec (done : List LogRecord) (idx : Index) (live : Nat) (r : LogRecord)
    (hnd : (idx.map Prod.fst).Nodup)
    (hal : AlignedIdx done idx)
    (hlv : live = liveBytes idx)
    (hle : live ≤ logSize done) :
    ∃ idx1 live1,
      rebuild_step (idx, logSize done, logSize done, live) r =
        (idx1, logSize (done ++ [r]), logSize (done ++ [r]), live1) ∧
      (idx1.map Prod.fst).Nodup ∧
      AlignedIdx (done ++ [r]) idx1 ∧
      live1 = liveBytes idx1 ∧
      live1 ≤ logSize (done ++ [r]) := by
  cases r with
  | Corrupt raw =>
    exact ⟨idx, live, by simp [rebuild_step], hnd, alignedIdx_append _ hal, hlv,
      by simp; omega⟩
  | Valid cmd =>
    cases cmd with
    | Set key val =>
      rcases hl : lookupA idx key with _ | old
      · refine ⟨insertA idx key ⟨logSize done, encLen (.Set key val)⟩,
          live + encLen (.Set key val),
          by simp [rebuild_step, hl], nodup_insertA hnd, ?_, ?_, by simp; omega⟩
        · intro kv hkv
          rcases mem_insertA hkv with rfl | hkv
          · exact ⟨val, readAt_append_end done _, rfl⟩
          · exact alignedIdx_append _ hal kv hkv
        · rw [liveBytes_insertA_none _ hl]
          simp
          omega
      · have hmem : old.len ≤ liveBytes idx := by
          simpa using mem_len_le_liveBytes (lookupA_mem hl)
        have hold : old.len ≤ live := by omega
        refine ⟨insertA idx key ⟨logSize done, encLen (.Set key val)⟩,
          (live - old.len) + encLen (.Set key val),
          by simp [rebuild_step, hl], nodup_insertA hnd, ?_, ?_, by simp; omega⟩
        · intro kv hkv
          rcases mem_insertA hkv with rfl | hkv
          · exact ⟨val, readAt_append_end done _, rfl⟩
          · exact alignedIdx_append _ hal kv hkv
        · have hins := liveBytes_insertA_some
            (⟨logSize done, encLen (.Set key val)⟩ : LogPointer) hl
          simp at hins
          omega
    | Remove key =>
      rcases hl : lookupA idx key with _ | old
      · exact ⟨idx, live, by simp [rebuild_step, hl], hnd, alignedIdx_append _ hal, hlv,
          by simp; omega⟩
      · have hmem : old.len ≤ liveBytes idx := by
          simpa using mem_len_le_liveBytes (lookupA_mem hl)
        have hold : old.len ≤ live := by omega
        refine ⟨eraseA idx key, live - old.len, by simp [rebuild_step, hl],
          nodup_eraseA hnd,
          fun kv hkv => alignedIdx_append _ hal kv (mem_eraseA hkv), ?_,
          by simp; omega⟩
        have herase := liveBytes_eraseA hl
        omega

theorem rebuild_go (rest : List LogRecord) :
    ∀ (done : List LogRecord) (idx : Index) (live : Nat),
      (idx.map Prod.fst).Nodup → AlignedIdx done idx →
      live = liveBytes idx → live ≤ logSize done →
      ∃ idx2 live2,
        rest.foldl rebuild_step (idx, logSize done, logSize done, live) =
          (idx2, logSize (done ++ rest), logSize (done ++ rest), live2) ∧
        (idx2.map Prod.fst).Nodup ∧ AlignedIdx (done ++ rest) idx2 ∧
        live2 = liveBytes idx2 ∧ live2 ≤ logSize (done ++ rest) := by
  induction rest with
  | nil =>
    intro done idx live hnd hal hlv hle
    exact ⟨idx, live, by simp, hnd, by simpa using hal, hlv, by simpa using hle⟩
  | cons r rest ih =>
    intro done idx live hnd hal hlv hle
    obtain ⟨idx1, live1, hstep, hnd1, hal1, hlv1, hle1⟩ :=
      rebuild_step_spec done idx live r hnd hal hlv hle
    obtain ⟨idx2, live2, heq, hnd2, hal2, hlv2, hle2⟩ :=
      ih (done ++ [r]) idx1 live1 hnd1 hal1 hlv1 hle1
    refine ⟨idx2, live2, ?_, hnd2, ?_, hlv2, ?_⟩
    · rw [List.foldl_cons, hstep, heq]
      simp [List.append_assoc]
    · simpa [List.append_assoc] using hal2
    · simpa [List.append_assoc] using hle2

theorem rebuild_index_spec (log : List LogRecord) :
    ((rebuild_index log).1.map Prod.fst).Nodup ∧
    AlignedIdx log (rebuild_index log).1 ∧
    (rebuild_index log).2 + liveBytes (rebuild_index log).1 = logSize log ∧
    liveBytes (rebuild_index log).1 ≤ logSize log := by
  obtain ⟨idx2, live2, heq, hnd, hal, hlv, hle⟩ :=
    rebuild_go log [] [] 0 (by simp) (by intro kv hkv; simp at hkv) (by simp) (by simp)
  simp only [logSize_nil, List.nil_append] at heq hal hle
  have hri : rebuild_index log = (idx2, logSize log - live2) := by
    simp only [rebuild_index]
    rw [heq]
  rw [hri]
  exact ⟨hnd, hal, by simp; omega, by simp; omega⟩

/-! ## The store invariant -/

/-- Every index pointer's offset sits at the start of some record of the
current log (it may be the wrong record — see the writer-cursor discussion in
the header — but it is always a record boundary). -/
def Boundary (log : List LogRecord) (idx : Index) : Prop :=
  ∀ kv ∈ idx, ∃ r, readAt log kv.2.offset = some r

theorem alignedIdx_boundary {log : List LogRecord} {idx : Index}
    (h : AlignedIdx log idx) : Boundary log idx :=
  fun kv hkv => ((h kv hkv).elim fun _ hv => ⟨_, hv.1⟩)

/-- Invariant maintained by every public operation: distinct index keys,
pointer offsets on record boundaries, exact stale-byte accounting, and a
writer cursor that is either 0 (handle freshly opened in append mode) or the
end-of-file. -/
structure StoreInv (s : KvStore) : Prop where
  nodup : (s.index.map Prod.fst).Nodup
  bdry : Boundary s.log s.index
  acct : s.uncompacted + liveBytes s.index = logSize s.log
  wp : s.wpos = 0 ∨ s.wpos = logSize s.log

theorem openLog_inv (log : List LogRecord) : StoreInv (KvStore.openLog log) := by
  obtain ⟨hnd, hal, hacct, hle⟩ := rebuild_index_spec log
  exact ⟨hnd, alignedIdx_boundary hal, hacct, Or.inl rfl⟩

/-! ## Compaction preserves the invariant -/

theorem lookupA_append (l1 l2 : Index) (k : String) :
    lookupA (l1 ++ l2) k =
      match lookupA l1 k with
      | some p => some p
      | none => lookupA l2 k := by
  induction l1 with
  | nil => simp
  | cons a tl ih =>
    obtain ⟨k1, p1⟩ := a
    simp only [List.cons_append, lookupA]
    split
    · rfl
    · exact ih

theorem compact_go (log : List LogRecord) (entries : List (String × LogPointer)) :
    ∀ (newLog : List LogRecord) (newIdx : Index),
      (∀ kv ∈ entries, ∃ r, readAt log kv.2.offset = some r) →
      (entries.map Prod.fst).Nodup →
      (∀ kv ∈ entries, lookupA newIdx kv.1 = none) →
      (newIdx.map Prod.fst).Nodup →
      liveBytes newIdx = logSize newLog →
      Boundary newLog newIdx →
      ∃ nl ni,
        entries.foldl (compact_step log) (newLog, newIdx, logSize newLog) =
          (nl, ni, logSize nl) ∧
        (ni.map Prod.fst).Nodup ∧
        liveBytes ni = logSize nl ∧
        Boundary nl ni ∧
        (∀ k, (lookupA ni k).isSome ↔
          (lookupA newIdx k).isSome ∨ k ∈ entries.map Prod.fst) := by
  induction entries with
  | nil =>
    intro newLog newIdx _ _ _ hnd hlv hb
    exact ⟨newLog, newIdx, by simp, hnd, hlv, hb, by simp⟩
  | cons e rest ih =>
    obtain ⟨key, ptr⟩ := e
    intro newLog newIdx hbe hnde hdis hnd hlv hb
    obtain ⟨r, hr⟩ := hbe (key, ptr) (List.mem_cons_self _ _)
    have hkey : lookupA newIdx key = none := hdis (key, ptr) (List.mem_cons_self _ _)
    simp only at hr
    have hstep : compact_step log (newLog, newIdx, logSize newLog) (key, ptr) =
        (newLog ++ [r], insertA newIdx key ⟨logSize newLog, recLen r⟩,
          logSize (newLog ++ [r])) := by
      simp [compact_step, hr]
    rw [List.map_cons] at hnde
    have hkeyrest : key ∉ rest.map Prod.fst := (List.nodup_cons.mp hnde).1
    have hrest : (rest.map Prod.fst).Nodup := (List.nodup_cons.mp hnde).2
    obtain ⟨nl, ni, heq, hnd2, hlv2, hb2, hiff⟩ :=
      ih (newLog ++ [r]) (insertA newIdx key ⟨logSize newLog, recLen r⟩)
        (fun kv hkv => hbe kv (List.mem_cons_of_mem _ hkv))
        hrest
        (by
          intro kv hkv
          have hne : key ≠ kv.1 := fun hcontra => hkeyrest (hcontra ▸ List.mem_map_of_mem Prod.fst hkv)
          rw [lookupA_insertA_ne _ hne]
          exact hdis kv (List.mem_cons_of_mem _ hkv))
        (nodup_insertA hnd)
        (by rw [liveBytes_insertA_none _ hkey]; simp [hlv])
        (by
          intro kv hkv
          rcases mem_insertA hkv with rfl | hkv
          · exact ⟨r, by simpa using readAt_append_end newLog r⟩
          · obtain ⟨q, hq⟩ := hb kv hkv
            exact ⟨q, readAt_append_of_some _ hq⟩)
    refine ⟨nl, ni, ?_, hnd2, hlv2, hb2, ?_⟩
    · rw [List.foldl_cons, hstep, heq]
    · intro k
      rw [hiff k]
      by_cases hk : k = key
      · subst hk
        simp
      · rw [lookupA_insertA_ne _ (Ne.symm hk)]
        simp [hk]

theorem compact_spec {s : KvStore} (h : StoreInv s) :
    StoreInv s.compact ∧
    (∀ k, (lookupA s.compact.index k).isSome ↔ (lookupA s.index k).isSome) ∧
    s.compact.uncompacted = 0 ∧
    logSize s.compact.log = liveBytes s.compact.index := by
  obtain ⟨nl, ni, heq, hnd2, hlv2, hb2, hiff⟩ :=
    compact_go s.log s.index [] [] h.bdry h.nodup (by simp) (by simp)
      (by simp) (by intro kv hkv; simp at hkv)
  simp only [logSize_nil] at heq
  have hc : s.compact =
      { index := ni, log := nl, wpos := 0, uncompacted := 0,
        threshold := s.threshold } := by
    simp only [KvStore.compact]
    rw [heq]
  rw [hc]
  refine ⟨⟨hnd2, hb2, by simp [hlv2], Or.inl rfl⟩, ?_, rfl, hlv2.symm⟩
  intro k
  simpa [lookupA_isSome_iff] using hiff k

theorem maybe_compact_spec {s : KvStore} (h : StoreInv s) :
    StoreInv s.maybe_compact ∧
    ∀ k, (lookupA s.maybe_compact.index k).isSome ↔ (lookupA s.index k).isSome := by
  rw [KvStore.maybe_compact]
  split
  · exact ⟨(compact_spec h).1, (compact_spec h).2.1⟩
  · exact ⟨h, fun k => Iff.rfl⟩

/-! ## set / remove preserve the invariant -/

theorem setBody_def (s : KvStore) (key val : String) :
    s.setBody key val =
      { index := insertA s.index key ⟨s.wpos, encLen (.Set key val)⟩,
        log := s.log ++ [LogRecord.Valid (.Set key val)],
        wpos := logSize s.log + encLen (.Set key val),
        uncompacted :=
          match lookupA s.index key with
          | some old => s.uncompacted + old.len
          | none => s.uncompacted,
        threshold := s.threshold } := rfl

theorem setBody_inv {s : KvStore} (h : StoreInv s) (key val : String) :
    StoreInv (s.setBody key val) ∧
    lookupA (s.setBody key val).index key = some ⟨s.wpos, encLen (.Set key val)⟩ := by
  rw [setBody_def]
  refine ⟨⟨nodup_insertA h.nodup, ?_, ?_, Or.inr (by simp)⟩, by simp⟩
  · intro kv hkv
    simp only at hkv
    rcases mem_insertA hkv with rfl | hkv
    · simp only
      rcases h.wp with hw | hw
      · rw [hw]
        exact readAt_append_zero s.log _
      · rw [hw]
        exact ⟨_, readAt_append_end s.log _⟩
    · obtain ⟨q, hq⟩ := h.bdry kv hkv
      exact ⟨q, readAt_append_of_some _ hq⟩
  · have hacct := h.acct
    rcases hl : lookupA s.index key with _ | old
    · simp only [hl]
      rw [liveBytes_insertA_none _ hl]
      simp
      omega
    · simp only [hl]
      have hins := liveBytes_insertA_some (⟨s.wpos, encLen (.Set key val)⟩ : LogPointer) hl
      simp at hins ⊢
      omega

theorem set_err_of_empty (s : KvStore) {key : String} (h : key.isEmpty) (val : String) :
    s.set key val = (s, .error (.InvalidKey "Key cannot be empty")) := by
  simp [KvStore.set, validate_key, h]

theorem set_ok_of_ne_empty (s : KvStore) {key : String} (h : ¬ key.isEmpty) (val : String) :
    s.set key val = ((s.setBody key val).maybe_compact, .ok ()) := by
  simp [KvStore.set, validate_key, h]

theorem set_ok_inv {s : KvStore} (hInv : StoreInv s) {key val : String} {s' : KvStore}
    (h : s.set key val = (s', Except.ok ())) :
    StoreInv s' ∧ (lookupA s'.index key).isSome := by
  by_cases hk : key.isEmpty
  · rw [set_err_of_empty s hk val] at h
    injection h with h1 h2
    exact Except.noConfusion h2
  · rw [set_ok_of_ne_empty s hk val] at h
    injection h with h1 h2
    subst h1
    obtain ⟨hB, hkey⟩ := setBody_inv hInv key val
    obtain ⟨hM, hiff⟩ := maybe_compact_spec hB
    exact ⟨hM, (hiff key).mpr (by simp [hkey])⟩

theorem removeBody_def {s : KvStore} {key : String} {old : LogPointer}
    (hl : lookupA s.index key = some old) :
    s.removeBody key =
      { index := eraseA s.index key,
        log := s.log ++ [LogRecord.Valid (.Remove key)],
        wpos := logSize s.log + encLen (.Remove key),
        uncompacted := s.uncompacted + old.len + encLen (.Remove key),
        threshold := s.threshold } := by
  simp [KvStore.removeBody, append_command, hl]

theorem removeBody_inv {s : KvStore} (h : StoreInv s) {key : String} {old : LogPointer}
    (hl : lookupA s.index key = some old) :
    StoreInv (s.removeBody key) ∧ lookupA (s.removeBody key).index key = none := by
  rw [removeBody_def hl]
  refine ⟨⟨nodup_eraseA h.nodup, ?_, ?_, Or.inr (by simp)⟩, lookupA_eraseA_self h.nodup⟩
  · intro kv hkv
    simp only at hkv
    obtain ⟨q, hq⟩ := h.bdry kv (mem_eraseA hkv)
    exact ⟨q, readAt_append_of_some _ hq⟩
  · have hacct := h.acct
    have herase := liveBytes_eraseA hl
    simp
    omega

theorem remove_err_of_absent {s : KvStore} {key : String}
    (h : lookupA s.index key = none) :
    s.remove key = (s, .error .KeyNotFound) := by
  simp [KvStore.remove, h]

theorem remove_ok_of_present {s : KvStore} {key : String} {old : LogPointer}
    (h : lookupA s.index key = some old) :
    s.remove key = ((s.removeBody key).maybe_compact, .ok ()) := by
  simp [KvStore.remove, h]

theorem remove_ok_inv {s : KvStore} (hInv : StoreInv s) {key : String} {s' : KvStore}
    (h : s.remove key = (s', Except.ok ())) :
    StoreInv s' ∧ lookupA s'.index key = none := by
  rcases hl : lookupA s.index key with _ | old
  · rw [remove_err_of_absent hl] at h
    injection h with h1 h2
    exact Except.noConfusion h2
  · rw [remove_ok_of_present hl] at h
    injection h with h1 h2
    subst h1
    obtain ⟨hB, hnone⟩ := removeBody_inv hInv hl
    obtain ⟨hM, hiff⟩ := maybe_compact_spec hB
    refine ⟨hM, ?_⟩
    have hns : ¬ (lookupA ((s.removeBody key).maybe_compact).index key).isSome := by
      simp [hiff key, hnone]
    exact Option.not_isSome_iff_eq_none.mp hns

theorem threshold_inv {s : KvStore} (h : StoreInv s) (t : Nat) :
    StoreInv (s.set_compaction_threshold t) :=
  ⟨h.nodup, h.bdry, h.acct, h.wp⟩

/-- Every reachable state satisfies the store invariant. -/
theorem reach_inv {s : KvStore} (h : Reachable s) : StoreInv s := by
  induction h with
  | init => exact openLog_inv []
  | stepSet s s' k v _ hstep ih => exact (set_ok_inv ih hstep).1
  | stepRemove s s' k _ hstep ih => exact (remove_ok_inv ih hstep).1
  | stepThreshold s t _ ih => exact threshold_inv ih t
  | stepReopen s _ _ => exact openLog_inv _

/-! ## Claim theorems -/

/-- Claim C4: for every value `v`, `set("", v)` returns the `InvalidKey`
error, and in that case the returned store is the unchanged receiver —
nothing is appended to the log and the index and uncompacted counter are
unchanged, because the key is validated before any write. -/
theorem C4_empty_key_rejected (s : KvStore) (v : String) :
    s.set "" v = (s, Except.error (KvError.InvalidKey "Key cannot be empty")) :=
  @set_err_of_empty s "" rfl v

/-- Claim C9: for every key `k`, `get k` returns `None` when `k` is absent
from the index; when `k` is present and the record read at its pointer
decodes as a `Remove` record or fails to decode (including a read at/past
end-of-file), `get` returns the `LogCorruption` error carrying that
pointer's offset. -/
theorem C9_get_error_paths (s : KvStore) (k : String) :
    (lookupA s.index k = none → s.get k = Except.ok none) ∧
    (∀ ptr, lookupA s.index k = some ptr →
      (∀ k', readAt s.log ptr.offset = some (LogRecord.Valid (Command.Remove k')) →
        s.get k = Except.error (KvError.LogCorruption ptr.offset)) ∧
      (∀ raw, readAt s.log ptr.offset = some (LogRecord.Corrupt raw) →
        s.get k = Except.error (KvError.LogCorruption ptr.offset)) ∧
      (readAt s.log ptr.offset = none →
        s.get k = Except.error (KvError.LogCorruption ptr.offset))) := by
  refine ⟨fun h => by simp [KvStore.get, h], fun ptr hp => ⟨?_, ?_, ?_⟩⟩
  · intro k' hr
    simp [KvStore.get, hp, hr]
  · intro raw hr
    simp [KvStore.get, hp, hr]
  · intro hr
    simp [KvStore.get, hp, hr]

/-- The invariant-violation fixture of the spec: an index entry whose
pointer addresses a `Remove` record. -/
def c9_store : KvStore :=
  { index := [("a", ⟨0, encLen (Command.Remove "a")⟩)],
    log := [LogRecord.Valid (Command.Remove "a")],
    wpos := encLen (Command.Remove "a"),
    uncompacted := 0,
    threshold := 1024 * 1024 }

theorem C9_get_error_paths_witness :
    c9_store.get "a" = Except.error (KvError.LogCorruption 0) :=
  ((C9_get_error_paths c9_store "a").2 ⟨0, encLen (Command.Remove "a")⟩ rfl).1 "a" rfl

/-- Claim C10: in every store state reachable by successful operations from
a freshly opened empty store, the uncompacted counter equals the total byte
length of the log minus the bytes referenced by the index's pointers; the
equality is preserved by every operation since it holds in every reachable
state. -/
theorem C10_stale_byte_accounting (s : KvStore) (h : Reachable s) :
    s.uncompacted = logSize s.log - liveBytes s.index ∧
    s.uncompacted + liveBytes s.index = logSize s.log := by
  have hacct := (reach_inv h).acct
  omega

theorem C10_stale_byte_accounting_witness :
    KvStore.openEmpty.uncompacted =
      logSize KvStore.openEmpty.log - liveBytes KvStore.openEmpty.index ∧
    KvStore.openEmpty.uncompacted + liveBytes KvStore.openEmpty.index =
      logSize KvStore.openEmpty.log :=
  C10_stale_byte_accounting KvStore.openEmpty Reachable.init

/-- Claim C8: during rebuild a record that fails to decode is skipped (it
never reaches the index, and rebuild is total — it cannot fail); after
replay `uncompacted = total_bytes_scanned - live_bytes`, where the live
bytes are the summed lengths of the records still referenced by the final
index: every final index entry points at an actual `Set` record of its own
key whose length is the entry's `len`. -/
theorem C8_rebuild_skips_and_accounts (log : List LogRecord) :
    (KvStore.openLog log).uncompacted + liveBytes (KvStore.openLog log).index = logSize log ∧
    (KvStore.openLog log).uncompacted = logSize log - liveBytes (KvStore.openLog log).index ∧
    ∀ kv ∈ (KvStore.openLog log).index, ∃ v,
      readAt log kv.2.offset = some (LogRecord.Valid (Command.Set kv.1 v)) ∧
      kv.2.len = encLen (Command.Set kv.1 v) := by
  obtain ⟨hnd, hal, hacct, hle⟩ := rebuild_index_spec log
  have e1 : (KvStore.openLog log).uncompacted = (rebuild_index log).2 := rfl
  have e2 : (KvStore.openLog log).index = (rebuild_index log).1 := rfl
  rw [e1, e2]
  exact ⟨hacct, by omega, hal⟩

/-- A log with a corrupted line followed by a valid Set record. -/
def c8_log : List LogRecord :=
  [LogRecord.Corrupt "junk", LogRecord.Valid (Command.Set "a" "1")]

theorem C8_rebuild_skips_and_accounts_witness :
    ∃ v, readAt c8_log 5 = some (LogRecord.Valid (Command.Set "a" v)) ∧
      encLen (Command.Set "a" "1") = encLen (Command.Set "a" v) :=
  (C8_rebuild_skips_and_accounts c8_log).2.2
    ("a", ⟨5, encLen (Command.Set "a" "1")⟩) (by decide)

/-- Claim C3: in any reachable state, after a successful `set(k, v)`,
`remove(k)` succeeds, a subsequent `get(k)` returns `None`, and a second
`remove(k)` returns `KeyNotFound` leaving the store unchanged.  In general
`remove(k)` returns `KeyNotFound` exactly when `k` is absent from the index,
and in that error case the store (log, index, counters) is unchanged — the
returned store is the receiver itself. -/
theorem C3_remove_semantics (s : KvStore) (h : Reachable s) (k : String) :
    (∀ v s1, s.set k v = (s1, Except.ok ()) →
      ∃ s2, s1.remove k = (s2, Except.ok ()) ∧
        s2.get k = Except.ok none ∧
        s2.remove k = (s2, Except.error KvError.KeyNotFound)) ∧
    ((s.remove k).2 = Except.error KvError.KeyNotFound ↔ lookupA s.index k = none) ∧
    (lookupA s.index k = none → s.remove k = (s, Except.error KvError.KeyNotFound)) := by
  have hInv := reach_inv h
  refine ⟨?_, ?_, ?_⟩
  · intro v s1 hset
    obtain ⟨hInv1, hsome⟩ := set_ok_inv hInv hset
    rcases hold : lookupA s1.index k with _ | old
    · rw [hold] at hsome
      simp at hsome
    · have hrm := remove_ok_of_present hold
      obtain ⟨hInv2, hnone2⟩ := remove_ok_inv hInv1 hrm
      refine ⟨(s1.removeBody k).maybe_compact, hrm, ?_, ?_⟩
      · simp [KvStore.get, hnone2]
      · exact remove_err_of_absent hnone2
  · rcases hl : lookupA s.index k with _ | old
    · simp [remove_err_of_absent hl, hl]
    · simp [remove_ok_of_present hl, hl]
  · intro hl
    exact remove_err_of_absent hl

theorem C3_remove_semantics_witness :
    ∃ s2, ((KvStore.openEmpty.set "a" "1").1.remove "a") = (s2, Except.ok ()) ∧
      s2.get "a" = Except.ok none ∧
      s2.remove "a" = (s2, Except.error KvError.KeyNotFound) :=
  (C3_remove_semantics KvStore.openEmpty Reachable.init "a").1 "1"
    (KvStore.openEmpty.set "a" "1").1 rfl

/-- Reachable state refuting claim C1: open an empty directory, set the
compaction threshold to 0, set "a" twice (the second set triggers
compaction, which reopens the append-mode writer with cursor 0), then
set "b".  The `LogPointer` recorded for "b" carries offset 0 — the value of
`stream_position()` on the freshly opened append-mode handle — although the
record for "b" was written at the end of the compacted log. -/
def c1_store : KvStore :=
  ((((KvStore.openEmpty.set_compaction_threshold 0).set "a" "1").1.set "a" "2").1.set "b" "3").1

/-- Claim C1 is violated by the code: in the reachable state `c1_store`,
which ends with a successful `set("b", "3")`, `get "b"` returns
`Some "2"` — the value of key "a", whose record sits at offset 0 of the
compacted log — instead of `Some "3"`. -/
theorem C1_set_get_bug_eval :
    c1_store.get "b" = Except.ok (some "2") ∧
    ¬ c1_store.get "b" = Except.ok (some "3") := by
  refine ⟨rfl, fun hc => ?_⟩
  rw [show c1_store.get "b" = Except.ok (some "2") from rfl] at hc
  injection hc with h1
  injection h1 with h2
  exact absurd h2 (by decide)

/-- Reachable state refuting claim C6: after `set("a","3")` triggers
compaction, the stale writer cursor from the previous compaction has already
corrupted the pointer for "a" (offset 0 points at the old "a"->"2" record),
so compaction copies the wrong record. -/
def c6_store : KvStore :=
  ((((KvStore.openEmpty.set_compaction_threshold 0).set "a" "1").1.set "a" "2").1.set "a" "3").1

/-- Claim C6 is violated by the code: in `c6_store` a compaction did run
synchronously inside the last `set` (`uncompacted` was reset to 0 and the
log holds exactly the live bytes), yet `get "a"` returns `Some "2"` instead
of the last-written value `"3"`. -/
theorem C6_compaction_value_bug_eval :
    c6_store.uncompacted = 0 ∧
    logSize c6_store.log = liveBytes c6_store.index ∧
    (lookupA c6_store.index "a").isSome = true ∧
    c6_store.get "a" = Except.ok (some "2") ∧
    ¬ c6_store.get "a" = Except.ok (some "3") := by
  refine ⟨rfl, rfl, rfl, rfl, fun hc => ?_⟩
  rw [show c6_store.get "a" = Except.ok (some "2") from rfl] at hc
  injection hc with h1
  injection h1 with h2
  exact absurd h2 (by decide)

/-- Reachable state refuting claim C5: continue the `c6_store` history with
one more overwrite, so the last two operations are `set("a","3")` then
`set("a","4")`. -/
def c5_store : KvStore :=
  (((((KvStore.openEmpty.set_compaction_threshold 0).set "a" "1").1.set "a" "2").1.set "a" "3").1.set "a" "4").1

/-- Claim C5 is violated by the code: after `set("a","3")` then
`set("a","4")` in this reachable history, `get "a"` returns `Some "2"`
instead of `Some "4"` (both sets recorded the stale cursor offset 0 and the
compactions they triggered kept copying the old "a"->"2" record); the
uncompacted counter ends at 0, not increased by the superseded record's
length. -/
theorem C5_overwrite_bug_eval :
    c5_store.get "a" = Except.ok (some "2") ∧
    ¬ c5_store.get "a" = Except.ok (some "4") ∧
    c5_store.uncompacted = 0 := by
  refine ⟨rfl, fun hc => ?_, rfl⟩
  rw [show c5_store.get "a" = Except.ok (some "2") from rfl] at hc
  injection hc with h1
  injection h1 with h2
  exact absurd h2 (by decide)

/-- A store with one index entry, used to exhibit the error variant of a
copy-phase failure. -/
def c7_store : KvStore := (KvStore.openEmpty.set "a" "1").1

/-- Counterexample to claim C7 as stated: an I/O error while copying the
first index entry (seek/read/write on the i-th entry propagates with `?` as
`KvError::Io`) leaves the store unchanged but surfaces `Io`, not
`CompactionFailed` — only `File::create` of the temp file and the final
rename are mapped to `CompactionFailed`. -/
theorem C7_copy_error_variant_counterexample :
    (c7_store.compactF (CompactIoFailure.copyStep 0)).1 = c7_store ∧
    (c7_store.compactF (CompactIoFailure.copyStep 0)).2 =
      Except.error (KvError.IoFail "copy failed") ∧
    ¬ ∃ msg, (c7_store.compactF (CompactIoFailure.copyStep 0)).2 =
        Except.error (KvError.CompactionFailed msg) := by
  refine ⟨rfl, rfl, ?_⟩
  rintro ⟨msg, hmsg⟩
  rw [show (c7_store.compactF (CompactIoFailure.copyStep 0)).2 =
    Except.error (KvError.IoFail "copy failed") from rfl] at hmsg
  injection hmsg with h1
  exact KvError.noConfusion h1

/-- Claim C7 amended: an I/O failure during compaction's copy phase (before
the atomic replace) leaves the in-memory store — log, index, uncompacted
counter — unchanged and the original log untouched, and surfaces an error:
`CompactionFailed` when creating the temporary file fails, `Io` when opening
the read handle, copying an entry, or flushing the temporary file fails. -/
theorem C7_copy_failure_amended (s : KvStore) (f : CompactIoFailure)
    (h : f = CompactIoFailure.createTmp ∨ f = CompactIoFailure.openRead ∨
      (∃ i, f = CompactIoFailure.copyStep i ∧ i < s.index.length) ∨
      f = CompactIoFailure.flushTmp) :
    (s.compactF f).1 = s ∧
    ((s.compactF f).2 = Except.error (KvError.CompactionFailed "create failed") ∨
     ∃ msg, (s.compactF f).2 = Except.error (KvError.IoFail msg)) := by
  rcases h with h | h | ⟨i, h, hi⟩ | h
  · subst h
    exact ⟨rfl, Or.inl rfl⟩
  · subst h
    exact ⟨rfl, Or.inr ⟨"open failed", rfl⟩⟩
  · subst h
    refine ⟨?_, Or.inr ⟨"copy failed", ?_⟩⟩ <;> simp [KvStore.compactF, hi]
  · subst h
    exact ⟨rfl, Or.inr ⟨"flush failed", rfl⟩⟩

theorem C7_copy_failure_amended_witness :
    (KvStore.openEmpty.compactF CompactIoFailure.createTmp).1 = KvStore.openEmpty ∧
    ((KvStore.openEmpty.compactF CompactIoFailure.createTmp).2 =
      Except.error (KvError.CompactionFailed "create failed") ∨
     ∃ msg, (KvStore.openEmpty.compactF CompactIoFailure.createTmp).2 =
      Except.error (KvError.IoFail msg)) :=
  C7_copy_failure_amended KvStore.openEmpty CompactIoFailure.createTmp (Or.inl rfl)

/-- The store produced by `set k1 v1` on a freshly opened empty store. -/
def oneSetStore (k1 v1 : String) : KvStore :=
  { index := [(k1, ⟨0, encLen (Command.Set k1 v1)⟩)],
    log := [LogRecord.Valid (Command.Set k1 v1)],
    wpos := encLen (Command.Set k1 v1),
    uncompacted := 0,
    threshold := 1024 * 1024 }

/-- The store produced by `set k1 v1` then `set k2 v2` (distinct keys) on a
freshly opened empty store. -/
def twoSetStore (k1 v1 k2 v2 : String) : KvStore :=
  { index := [(k1, ⟨0, encLen (Command.Set k1 v1)⟩),
              (k2, ⟨encLen (Command.Set k1 v1), encLen (Command.Set k2 v2)⟩)],
    log := [LogRecord.Valid (Command.Set k1 v1), LogRecord.Valid (Command.Set k2 v2)],
    wpos := encLen (Command.Set k1 v1) + encLen (Command.Set k2 v2),
    uncompacted := 0,
    threshold := 1024 * 1024 }

/-- Claim C2: for distinct non-empty keys `k1, k2` and values `v1, v2`,
starting from an empty store, `set(k1,v1)` and `set(k2,v2)` both succeed;
closing and reopening the store at the same directory (modelled by
`openLog` on the final log) yields `get(k1) = Some v1` and
`get(k2) = Some v2`, and the index rebuilt on open equals the pre-close
index exactly. -/
theorem C2_durability_rebuild (k1 k2 v1 v2 : String)
    (h1 : ¬ k1.isEmpty) (h2 : ¬ k2.isEmpty) (hne : k1 ≠ k2) :
    ∃ s1 s2, KvStore.openEmpty.set k1 v1 = (s1, Except.ok ()) ∧
      s1.set k2 v2 = (s2, Except.ok ()) ∧
      (KvStore.openLog s2.log).get k1 = Except.ok (some v1) ∧
      (KvStore.openLog s2.log).get k2 = Except.ok (some v2) ∧
      (KvStore.openLog s2.log).index = s2.index := by
  have hoe : KvStore.openEmpty =
      { index := [], log := [], wpos := 0, uncompacted := 0,
        threshold := 1024 * 1024 } := rfl
  have e1 : KvStore.openEmpty.set k1 v1 = (oneSetStore k1 v1, Except.ok ()) := by
    rw [set_ok_of_ne_empty _ h1, hoe, setBody_def]
    simp [KvStore.maybe_compact, insertA, oneSetStore]
  have e2 : (oneSetStore k1 v1).set k2 v2 = (twoSetStore k1 v1 k2 v2, Except.ok ()) := by
    rw [set_ok_of_ne_empty _ h2, setBody_def]
    simp [KvStore.maybe_compact, insertA, lookupA, hne, oneSetStore, twoSetStore, logSize]
  have e3 : KvStore.openLog (twoSetStore k1 v1 k2 v2).log =
      { index := (twoSetStore k1 v1 k2 v2).index,
        log := (twoSetStore k1 v1 k2 v2).log,
        wpos := 0, uncompacted := 0, threshold := 1024 * 1024 } := by
    simp [KvStore.openLog, rebuild_index, rebuild_step, lookupA, insertA, hne, twoSetStore]
  have hne0 : encLen (Command.Set k1 v1) ≠ 0 := by
    have := encLen_pos (Command.Set k1 v1)
    omega
  refine ⟨_, _, e1, e2, ?_, ?_, ?_⟩
  · rw [e3]
    simp [KvStore.get, lookupA, readAt, twoSetStore]
  · rw [e3]
    simp [KvStore.get, lookupA, readAt, hne, hne0, Nat.lt_irrefl, Nat.sub_self, twoSetStore]
  · rw [e3]

theorem C2_durability_rebuild_witness :
    ∃ s1 s2, KvStore.openEmpty.set "a" "1" = (s1, Except.ok ()) ∧
      s1.set "b" "2" = (s2, Except.ok ()) ∧
      (KvStore.openLog s2.log).get "a" = Except.ok (some "1") ∧
      (KvStore.openLog s2.log).get "b" = Except.ok (some "2") ∧
      (KvStore.openLog s2.log).index = s2.index :=
  C2_durability_rebuild "a" "b" "1" "2" (by decide) (by decide) (by decide)
